import Mathlib

/-!
Verification development for the Ecuador EPG scraper (`scrape.py`).

The scraper turns schedule pages into XMLTV programme listings.  We give a
shallow embedding of its pure core:

* timestamps are modelled as minutes (`Nat`) counted from midnight of the
  day-panel's anchor date in the fixed UTC-5 zone; `timedelta(days=1)` is
  `+ 1440`, `timedelta(minutes=30)` is `+ 30`;
* Python's `re` patterns are modelled by structural parsers over `List Char`
  (with `\s` and `\d` read as their ASCII classes, and `str.lower` as ASCII
  lowering - the inputs the scraper feeds them are covered by this);
* a raised-and-uncaught `ValueError` is modelled by `none` in an `Option`
  result; a caught one by an explicit "skip" value.
-/

/-- Models the character class `\s` of `WS_RE = re.compile(r"\s+")` and the
default `str.strip`, restricted to ASCII whitespace. -/
def isPySpace (c : Char) : Bool := c = ' ' ∨ c = '\t' ∨ c = '\n' ∨ c = '\r' ∨ c = '\x0b' ∨ c = '\x0c'

/-- Models the character class `\d`, restricted to ASCII digits. -/
def isDigitC (c : Char) : Bool := 48 ≤ c.toNat ∧ c.toNat ≤ 57

/-- Digit value of an ASCII digit character. -/
def toD (c : Char) : Nat := c.toNat - 48

/-- Models `str.lower` on a character (ASCII range). -/
def lowerChar (c : Char) : Char :=
  if 'A' ≤ c ∧ c ≤ 'Z' then Char.ofNat (c.toNat + 32) else c

/-- Models `str.lower` (ASCII range). -/
def lowerStr (s : String) : String := String.mk (s.data.map lowerChar)

/-- Models `WS_RE.sub(" ", s)`: every maximal run of whitespace is replaced
by a single space. -/
def collapseWS : List Char → List Char
  | [] => []
  | [c] => if isPySpace c then [' '] else [c]
  | a :: b :: rest =>
    if isPySpace a ∧ isPySpace b then collapseWS (b :: rest)
    else (if isPySpace a then ' ' else a) :: collapseWS (b :: rest)

/-- Models `str.strip()`: drop whitespace from both ends. -/
def pyStrip (l : List Char) : List Char :=
  ((l.dropWhile isPySpace).reverse.dropWhile isPySpace).reverse

/-- Helper for the `re.sub(r"^(AM|PM)\s+...", ...)` calls of `clean_text`:
if `l` starts with `AM` or `PM` (case-insensitively) followed by at least one
whitespace character, consume that prefix (the `\s+` greedily) and return the
remainder, else `none`. -/
def chompAmPmWs : List Char → Option (List Char)
  | a :: b :: c :: rest =>
    if (lowerChar a = 'a' ∨ lowerChar a = 'p') ∧ lowerChar b = 'm' ∧ isPySpace c then
      some ((c :: rest).dropWhile isPySpace)
    else none
  | _ => none

/-- Models the two prefix substitutions of `clean_text`:
`re.sub(r"^(AM|PM)\s+(AM|PM)\s+", "", s, flags=re.IGNORECASE)` followed by
`re.sub(r"^(AM|PM)\s+", "", s, flags=re.IGNORECASE)`. -/
def stripAmPm (l : List Char) : List Char :=
  let l1 := match chompAmPmWs l with
    | some r1 =>
      match chompAmPmWs r1 with
      | some r2 => r2
      | none => l
    | none => l
  match chompAmPmWs l1 with
  | some r => r
  | none => l1

/-- Models `clean_text`: replace NBSP by a space, collapse whitespace runs and
strip, remove the `AM`/`PM` bug prefixes, strip again. -/
def clean_text (s : String) : String :=
  let l := s.data.map (fun c => if c = '\xA0' then ' ' else c)
  let l := pyStrip (collapseWS l)
  let l := stripAmPm l
  String.mk (pyStrip l)

/-- Parses `(\d{1,2}):` at the head of the list (as in `TIME_HHMM_RE` and
`TIME_RANGE_RE`): one or two digits followed by a colon, returning the value
and the remainder.  Mirrors the regex engine's backtracking: the two-digit
reading is preferred, the one-digit reading tried second. -/
def parseD2Colon : List Char → Option (Nat × List Char)
  | a :: b :: c :: rest =>
    if isDigitC a ∧ isDigitC b ∧ c = ':' then some (toD a * 10 + toD b, rest)
    else if isDigitC a ∧ b = ':' then some (toD a, c :: rest)
    else none
  | [a, b] => if isDigitC a ∧ b = ':' then some (toD a, []) else none
  | _ => none

/-- Parses `(\d{2})` at the head of the list: exactly two digits. -/
def parse2D : List Char → Option (Nat × List Char)
  | a :: b :: rest =>
    if isDigitC a ∧ isDigitC b then some (toD a * 10 + toD b, rest) else none
  | _ => none

/-- Models `parse_hhmm`: clean the string and match it against
`TIME_HHMM_RE = r"^(\d{1,2}):(\d{2})$"`.  The Python code raises `ValueError`
on a failed match, modelled by `none`.  Note there is no range check on the
hour or minute values. -/
def parse_hhmm (s : String) : Option (Nat × Nat) :=
  let l := (clean_text s).data
  match parseD2Colon l with
  | none => none
  | some (hh, l) =>
    match parse2D l with
    | none => none
    | some (mm, l) => if l = [] then some (hh, mm) else none

/-- Models `TIME_RANGE_RE = r"^\s*(\d{1,2}):(\d{2})\s*-\s*(\d{1,2}):(\d{2})\s*$"`
applied with `.match` to a line, returning `(sh, sm, eh, em)`. -/
def parseRange (s : String) : Option (Nat × Nat × Nat × Nat) :=
  let l := s.data.dropWhile isPySpace
  match parseD2Colon l with
  | none => none
  | some (sh, l) =>
    match parse2D l with
    | none => none
    | some (sm, l) =>
      match l.dropWhile isPySpace with
      | '-' :: l =>
        match parseD2Colon (l.dropWhile isPySpace) with
        | none => none
        | some (eh, l) =>
          match parse2D l with
          | none => none
          | some (em, l) =>
            if l.dropWhile isPySpace = [] then some (sh, sm, eh, em) else none
      | _ => none

/-- Models `datetime(year, month, day, hh, mm, tzinfo=ECUADOR_TZ)` on the
anchor date: valid clock values give the minute-of-day instant, out-of-range
values raise `ValueError` (modelled by `none`). -/
def mk_dt (hh mm : Nat) : Option Nat :=
  if hh ≤ 23 ∧ mm ≤ 59 then some (hh * 60 + mm) else none

/-- A `(dt, title)` point of the Teleamazonas extractor: the instant in
minutes from the anchor midnight, and the title. -/
abbrev TAPoint := Nat × String

/-- Models the `Programme` dataclass; `start`/`stop` in minutes from the
anchor midnight. -/
structure Programme where
  channel_id : String
  start : Nat
  stop : Nat
  title : String
deriving DecidableEq, Repr

/-- Models `TA_CHANNEL_ID`. -/
def TA_CHANNEL_ID : String := "teleamazonas.ec"

/-- Models `ECDF_CHANNEL_ID`. -/
def ECDF_CHANNEL_ID : String := "ecdf.ec"

/-- Models the body of one iteration of the item loop of
`ta_extract_points_from_article` (given the two text fields of an item):
clean both texts, skip (`some none`) if either is empty, parse the time and
skip on `ValueError`, then build the `datetime` - which raises an uncaught
`ValueError` (`none`) when the parsed values are out of range. -/
def ta_process_item (timeRaw titleRaw : String) : Option (Option TAPoint) :=
  let time_text := clean_text timeRaw
  let title_text := clean_text titleRaw
  if time_text = "" ∨ title_text = "" then some none
  else
    match parse_hhmm time_text with
    | none => some none
    | some (hh, mm) =>
      match mk_dt hh mm with
      | some dt => some (some (dt, title_text))
      | none => none

/-- Models the item loop of `ta_extract_points_from_article`: collect the
points of the items in order, skipping skipped items and aborting on an
uncaught error. -/
def ta_collect : List (String × String) → Option (List TAPoint)
  | [] => some []
  | (tr, ti) :: rest =>
    match ta_process_item tr ti with
    | none => none
    | some none => ta_collect rest
    | some (some p) => (ta_collect rest).map (p :: ·)

/-- The deduplication key of `ta_extract_points_from_article`:
`(dt.isoformat(), title.lower())`; `isoformat` is injective on instants, so
the instant itself serves. -/
def taKey (p : TAPoint) : Nat × String := (p.1, lowerStr p.2)

/-- Models the dedup loop of `ta_extract_points_from_article`: keep a point
iff its key was not seen before (the `seen` set is modelled as a list). -/
def ta_dedup (seen : List (Nat × String)) : List TAPoint → List TAPoint
  | [] => []
  | p :: ps =>
    if taKey p ∈ seen then ta_dedup seen ps
    else p :: ta_dedup (taKey p :: seen) ps

/-- Models lines 168-178 of `ta_extract_points_from_article`: deduplicate
exact `(isoformat, lowercased title)` repeats keeping first occurrences, then
`dedup.sort(key=lambda x: x[0])` - a stable sort by the instant alone. -/
def ta_dedup_sort (pts : List TAPoint) : List TAPoint :=
  (ta_dedup [] pts).mergeSort (fun a b => a.1 ≤ b.1)

/-- Models `ta_extract_points_from_article` on the time/title text pairs of
the day's items. -/
def ta_extract_points_from_article (items : List (String × String)) : Option (List TAPoint) :=
  (ta_collect items).map ta_dedup_sort

/-- Models the `while dt < last_dt: dt = dt + timedelta(days=1)` rollover
loop of `points_to_programmes`. -/
def roll (last dt : Nat) : Nat :=
  if dt < last then roll last (dt + 1440) else dt
termination_by last - dt
decreasing_by omega

/-- Models the first loop of `points_to_programmes` building `fixed[1:]`:
each point is rolled forward past `last_dt`, and `last_dt` is updated to the
rolled value. -/
def fixPoints (last : Nat) : List TAPoint → List TAPoint
  | [] => []
  | (dt, title) :: rest =>
    (roll last dt, title) :: fixPoints (roll last dt) rest

/-- The full `fixed` list of `points_to_programmes`: the first point is kept
as-is and seeds `last_dt`. -/
def normalizeTimeline : List TAPoint → List TAPoint
  | [] => []
  | (dt, title) :: rest => (dt, title) :: fixPoints dt rest

/-- Models the second loop of `points_to_programmes`: `stop` is the next
point's instant or `start + 30` for the last point, forced to `start + 30`
whenever it is not strictly after `start`. -/
def buildProgs (channel_id : String) : List TAPoint → List Programme
  | [] => []
  | (start_dt, title) :: rest =>
    let stop0 := match rest with
      | (dt2, _) :: _ => dt2
      | [] => start_dt + 30
    let stop_dt := if stop0 ≤ start_dt then start_dt + 30 else stop0
    ⟨channel_id, start_dt, stop_dt, title⟩ :: buildProgs channel_id rest

/-- Models `points_to_programmes`. -/
def points_to_programmes (channel_id : String) (points : List TAPoint) : List Programme :=
  buildProgs channel_id (normalizeTimeline points)

/-- The denylist of `_meaningful_line` (the `bad` set). -/
def badLines : List String :=
  ["en vivo",
   "quedan:",
   "guía de programación",
   "guia de programación",
   "canales",
   "todos los canales fútbol hípica golf",
   "suscríbete",
   "suscríbete para continuar",
   "este contenido requiere una suscripción activa. mejora tu plan para verlo.",
   "empty !!"]

/-- Models `_meaningful_line`: clean the line; it is meaningful iff it is
nonempty and its lowercase form is not denylisted. -/
def meaningful_line (s : String) : Bool :=
  let s := clean_text s
  s ≠ "" ∧ lowerStr s ∉ badLines

/-- Models the guide-line loop of `scrape_ecdf` (lines 339-373): scan lines
keeping a pending `last_title`; a time-range line with a pending title emits
one programme (with midnight rollover on the stop) and clears the title; a
range line without a pending title is skipped; a meaningful non-range line
becomes the pending title.  `none` models an uncaught `ValueError` from the
`datetime` constructor. -/
def ecdf_loop (lastTitle : Option String) : List String → Option (List Programme)
  | [] => some []
  | line :: rest =>
    if line = "" then ecdf_loop lastTitle rest
    else
      match parseRange line with
      | some (sh, sm, eh, em) =>
        match lastTitle with
        | none => ecdf_loop none rest
        | some t =>
          if t = "" then ecdf_loop (some t) rest
          else
            match mk_dt sh sm, mk_dt eh em with
            | some start_dt, some stop0 =>
              let stop_dt := if stop0 ≤ start_dt then stop0 + 1440 else stop0
              Option.map (fun ps => ⟨ECDF_CHANNEL_ID, start_dt, stop_dt, t⟩ :: ps)
                (ecdf_loop none rest)
            | _, _ => none
      | none =>
        if meaningful_line line ∧ (parseRange line).isNone then ecdf_loop (some line) rest
        else ecdf_loop lastTitle rest

/-- The sort/dedup key of the aggregator in `main`:
`(p.channel_id, p.start, p.stop, p.title.lower())`. -/
def progKey (p : Programme) : String × Nat × Nat × String :=
  (p.channel_id, p.start, p.stop, lowerStr p.title)

/-- Lexicographic comparison of aggregator keys, as Python compares the key
tuples: the first differing component decides. -/
def keyLe (a b : String × Nat × Nat × String) : Bool :=
  if a.1 = b.1 then
    if a.2.1 = b.2.1 then
      if a.2.2.1 = b.2.2.1 then decide (a.2.2.2 ≤ b.2.2.2)
      else decide (a.2.2.1 < b.2.2.1)
    else decide (a.2.1 < b.2.1)
  else decide (a.1 < b.1)

/-- The comparison `main` sorts by. -/
def progLe (a b : Programme) : Bool := keyLe (progKey a) (progKey b)

/-- Models the dedup loop of `main`: keep an item iff its full key differs
from the immediately preceding item's key (`last_key`). -/
def dedupAdj (lastKey : Option (String × Nat × Nat × String)) :
    List Programme → List Programme
  | [] => []
  | p :: ps =>
    if some (progKey p) = lastKey then dedupAdj (some (progKey p)) ps
    else p :: dedupAdj (some (progKey p)) ps

/-- Models the aggregator of `main` (lines 432-440): stable-sort all
programmes by the key and drop items whose key equals the preceding key. -/
def aggregate (l : List Programme) : List Programme :=
  dedupAdj none (l.mergeSort progLe)

/-! Properties of the rollover loop -/

/-- Unfolding `roll` when the point is not behind `last`. -/
theorem roll_of_ge {last dt : Nat} (h : last ≤ dt) : roll last dt = dt := by
  rw [roll]; simp [Nat.not_lt.mpr h]

/-- Unfolding `roll` when the point is behind `last`. -/
theorem roll_of_lt {last dt : Nat} (h : dt < last) : roll last dt = roll last (dt + 1440) := by
  rw [roll]; simp [h]

/-- The rolled instant is never before `last`. -/
theorem roll_ge_last (last dt : Nat) : last ≤ roll last dt := by
  by_cases h : dt < last
  · rw [roll_of_lt h]; exact roll_ge_last last (dt + 1440)
  · rw [roll_of_ge (Nat.le_of_not_lt h)]; omega
termination_by last - dt
decreasing_by omega

/-- The rolled instant is never before the naive instant. -/
theorem roll_ge_dt (last dt : Nat) : dt ≤ roll last dt := by
  by_cases h : dt < last
  · rw [roll_of_lt h]; have := roll_ge_dt last (dt + 1440); omega
  · rw [roll_of_ge (Nat.le_of_not_lt h)]
termination_by last - dt
decreasing_by omega

/-- For a backward point the loop stops within one day past `last`
(minimality of the advance). -/
theorem roll_lt_last_add (last dt : Nat) (h : dt < last) : roll last dt < last + 1440 := by
  rw [roll_of_lt h]
  by_cases h2 : dt + 1440 < last
  · exact roll_lt_last_add last (dt + 1440) h2
  · rw [roll_of_ge (Nat.le_of_not_lt h2)]; omega
termination_by last - dt
decreasing_by omega

/-- The advance is a whole number of days. -/
theorem roll_add_days (last dt : Nat) : ∃ k, roll last dt = dt + 1440 * k := by
  by_cases h : dt < last
  · rw [roll_of_lt h]
    obtain ⟨k, hk⟩ := roll_add_days last (dt + 1440)
    exact ⟨k + 1, by omega⟩
  · rw [roll_of_ge (Nat.le_of_not_lt h)]; exact ⟨0, by omega⟩
termination_by last - dt
decreasing_by omega

/-- Claim C1, counterexample: on clock input `06:00, 05:55, 07:00` (minutes
`360, 355, 420` of the anchor day) the code does not keep the `05:55` point
on the working date: it rolls it to `05:55` of the next day (minute `1795`)
and updates `last_dt` to it, so the following `07:00` point is rolled to the
next day as well (minute `1860`) - contradicting the claimed 8-hour glitch
tolerance and non-cascade. -/
theorem claim_C1_counterexample :
    normalizeTimeline [(360, "a"), (355, "b"), (420, "c")] =
      [(360, "a"), (1795, "b"), (1860, "c")] ∧
    (1795 : Nat) ≠ 355 ∧ (1860 : Nat) ≠ 420 := by
  refine ⟨?_, by decide, by decide⟩
  simp [normalizeTimeline, fixPoints, roll]

/-- Claim C1, amended: there is no 8-hour threshold.  Every point whose naive
instant is earlier than the last accepted instant - by however small a gap -
is advanced one day at a time until it is at or past the last accepted
instant (and by no more than one day past it), and the last accepted instant
is updated to the advanced value; in particular for input clock times
`06:00, 05:55, 07:00` the `05:55` point is emitted as `05:55` of the next
day and the `07:00` point as `07:00` of the next day. -/
theorem claim_C1_rollover_amended :
    (∀ last dt : Nat,
      (last ≤ dt → roll last dt = dt) ∧
      (dt < last → last ≤ roll last dt ∧ roll last dt < last + 1440 ∧
        ∃ k, roll last dt = dt + 1440 * k)) ∧
    normalizeTimeline [(360, "a"), (355, "b"), (420, "c")] =
      [(360, "a"), (1795, "b"), (1860, "c")] := by
  refine ⟨fun last dt => ⟨fun h => roll_of_ge h,
    fun h => ⟨roll_ge_last last dt, roll_lt_last_add last dt h, roll_add_days last dt⟩⟩, ?_⟩
  simp [normalizeTimeline, fixPoints, roll]

/-- Witness for the amended C1 at concrete inputs. -/
theorem claim_C1_rollover_amended_witness :
    360 ≤ roll 360 355 ∧ roll 360 420 = 420 :=
  ⟨((claim_C1_rollover_amended.1 360 355).2 (by decide)).1,
   (claim_C1_rollover_amended.1 360 420).1 (by decide)⟩

/-! Monotonicity of the normalized timeline -/

/-- Each `fixed` point produced by `fixPoints` is at or after the running
`last_dt` it was accepted against. -/
theorem chain_fixPoints (l : List TAPoint) : ∀ (last : Nat) (t : String),
    List.Chain (fun a b : TAPoint => a.1 ≤ b.1) (last, t) (fixPoints last l) := by
  induction l with
  | nil => intro last t; exact List.Chain.nil
  | cons p rest ih =>
    intro last t
    obtain ⟨dt, title⟩ := p
    simp only [fixPoints]
    exact List.Chain.cons (roll_ge_last last dt) (ih (roll last dt) title)

/-- Claim C2: for every day's point sequence, the sequence of instants in the
`fixed` list built by `points_to_programmes` is non-decreasing: every
adjacent pair `(a, b)` satisfies `instant(b) ≥ instant(a)`. -/
theorem claim_C2_normalized_monotone (pts : List TAPoint) :
    List.Chain' (fun a b : TAPoint => a.1 ≤ b.1) (normalizeTimeline pts) := by
  cases pts with
  | nil => simp [normalizeTimeline]
  | cons p rest =>
    obtain ⟨dt, t⟩ := p
    simp only [normalizeTimeline]
    exact chain_fixPoints rest dt t

/-! The programme-building phase -/

/-- Every programme built by the second loop of `points_to_programmes` has
its stop strictly after its start. -/
theorem buildProgs_start_lt_stop : ∀ (l : List TAPoint) (ch : String) (p : Programme),
    p ∈ buildProgs ch l → p.start < p.stop := by
  intro l
  induction l with
  | nil => intro ch p h; simp [buildProgs] at h
  | cons q rest ih =>
    intro ch p h
    obtain ⟨dt, title⟩ := q
    simp only [buildProgs, List.mem_cons] at h
    rcases h with h | h
    · subst h; dsimp; split <;> omega
    · exact ih ch p h

/-- Every programme built by `buildProgs` carries the channel it was built
for. -/
theorem buildProgs_channel : ∀ (l : List TAPoint) (ch : String) (p : Programme),
    p ∈ buildProgs ch l → p.channel_id = ch := by
  intro l
  induction l with
  | nil => intro ch p h; simp [buildProgs] at h
  | cons q rest ih =>
    intro ch p h
    obtain ⟨dt, title⟩ := q
    simp only [buildProgs, List.mem_cons] at h
    rcases h with h | h
    · subst h; rfl
    · exact ih ch p h

/-- A valid `datetime` instant is within the anchor day. -/
theorem mk_dt_le (hh mm dt : Nat) (h : mk_dt hh mm = some dt) : dt ≤ 1439 := by
  simp only [mk_dt] at h
  split at h
  · simp only [Option.some_inj] at h; omega
  · exact absurd h (by simp)

/-- Inversion of the valid `datetime` constructor. -/
theorem mk_dt_some (hh mm dt : Nat) (h : mk_dt hh mm = some dt) :
    hh ≤ 23 ∧ mm ≤ 59 ∧ dt = hh * 60 + mm := by
  simp only [mk_dt] at h
  split at h
  · simp only [Option.some_inj] at h; omega
  · exact absurd h (by simp)

/-- Every programme emitted by the guide-line loop of `scrape_ecdf` has its
stop strictly after its start and carries the ECDF channel id. -/
theorem ecdf_loop_invariant : ∀ (lines : List String) (st : Option String)
    (progs : List Programme), ecdf_loop st lines = some progs →
    ∀ p ∈ progs, p.start < p.stop ∧ p.channel_id = ECDF_CHANNEL_ID := by
  intro lines
  induction lines with
  | nil =>
    intro st progs h p hp
    simp only [ecdf_loop, Option.some_inj] at h
    subst h
    simp at hp
  | cons line rest ih =>
    intro st progs h p hp
    rw [ecdf_loop] at h
    split at h
    · exact ih st progs h p hp
    · split at h
      · rename_i sh sm eh em
        match st with
        | none => exact ih none progs h p hp
        | some t =>
          dsimp only at h
          split at h
          · exact ih (some t) progs h p hp
          · split at h
            · rename_i start_dt stop0 hstart hstop
              rw [Option.map_eq_some'] at h
              obtain ⟨ps, hps, rfl⟩ := h
              rcases List.mem_cons.mp hp with rfl | hmem
              · refine ⟨?_, rfl⟩
                have h1 := mk_dt_le _ _ _ hstart
                dsimp
                split <;> omega
              · exact ih none ps hps p hmem
            · exact absurd h (by simp)
      · split at h
        · exact ih (some line) progs h p hp
        · exact ih st progs h p hp

/-- Claim C5: every programme produced by the pipeline satisfies
`stop > start` - both in `points_to_programmes` and in the `scrape_ecdf`
guide loop - and when two input points share an identical instant the first
programme's stop is forced to `start + 30` (the default duration), never
equal to its start. -/
theorem claim_C5_stop_after_start :
    (∀ (ch : String) (pts : List TAPoint) (p : Programme),
      p ∈ points_to_programmes ch pts → p.start < p.stop) ∧
    (∀ (lines : List String) (st : Option String) (progs : List Programme)
      (p : Programme), ecdf_loop st lines = some progs → p ∈ progs →
      p.start < p.stop) ∧
    (∀ (ch : String) (d : Nat) (t1 t2 : String) (rest : List TAPoint),
      ∃ ps, points_to_programmes ch ((d, t1) :: (d, t2) :: rest) =
        ⟨ch, d, d + 30, t1⟩ :: ps) := by
  refine ⟨fun ch pts p hp => buildProgs_start_lt_stop _ ch p hp,
    fun lines st progs p h hp => (ecdf_loop_invariant lines st progs h p hp).1,
    fun ch d t1 t2 rest => ?_⟩
  refine ⟨buildProgs ch ((roll d d, t2) :: fixPoints (roll d d) rest), ?_⟩
  simp only [points_to_programmes, normalizeTimeline, fixPoints, buildProgs]
  rw [roll_of_ge (Nat.le_refl d)]
  simp

/-- Witness for C5 at concrete inputs: a one-point day yields a programme
`0 < 30`, the concrete ECDF guide `["Partido", "08:00 - 09:30"]` yields a
programme with `480 < 570`, and two `08:00` points give a first programme
stopping at `08:30`. -/
theorem claim_C5_stop_after_start_witness :
    (⟨"c", 0, 30, "x"⟩ : Programme).start < (⟨"c", 0, 30, "x"⟩ : Programme).stop ∧
    (⟨ECDF_CHANNEL_ID, 480, 570, "Partido"⟩ : Programme).start <
      (⟨ECDF_CHANNEL_ID, 480, 570, "Partido"⟩ : Programme).stop ∧
    ∃ ps, points_to_programmes "c" [(480, "A"), (480, "B")] =
      ⟨"c", 480, 510, "A"⟩ :: ps := by
  refine ⟨claim_C5_stop_after_start.1 "c" [(0, "x")] _ (by decide), ?_, ?_⟩
  · refine claim_C5_stop_after_start.2.1 ["Partido", "08:00 - 09:30"] none
      [⟨ECDF_CHANNEL_ID, 480, 570, "Partido"⟩] _ (by decide) (by decide)
  · exact claim_C5_stop_after_start.2.2 "c" 480 "A" "B" []

/-- Claim C4, counterexample: the code has no title-based channel router.  A
title containing "Guayaquil" is published to the fixed Teleamazonas channel
(not to a secondary channel only), and a city-agnostic title is published to
that single channel as well (not to both channels). -/
theorem claim_C4_counterexample :
    (points_to_programmes TA_CHANNEL_ID [(480, "Noticias Guayaquil")]).map Programme.channel_id =
      ["teleamazonas.ec"] ∧
    (points_to_programmes TA_CHANNEL_ID [(480, "Teleserie")]).map Programme.channel_id =
      ["teleamazonas.ec"] ∧
    ("teleamazonas.ec" : String) ≠ "ecdf.ec" := by
  refine ⟨by decide, by decide, by decide⟩

/-- Claim C4, amended: channel assignment ignores the programme title
entirely.  Each scraper stamps its own fixed channel id on every programme it
produces: `points_to_programmes` uses the channel id it is called with
(`TA_CHANNEL_ID` in the Teleamazonas scraper), and the ECDF guide loop always
uses `ECDF_CHANNEL_ID`; no keyword routing to a secondary channel or to both
channels exists. -/
theorem claim_C4_fixed_channel_amended :
    (∀ (ch : String) (pts : List TAPoint) (p : Programme),
      p ∈ points_to_programmes ch pts → p.channel_id = ch) ∧
    (∀ (lines : List String) (st : Option String) (progs : List Programme)
      (p : Programme), ecdf_loop st lines = some progs → p ∈ progs →
      p.channel_id = ECDF_CHANNEL_ID) :=
  ⟨fun ch pts p hp => buildProgs_channel _ ch p hp,
   fun lines st progs p h hp => (ecdf_loop_invariant lines st progs h p hp).2⟩

/-- Witness for the amended C4 at concrete inputs. -/
theorem claim_C4_fixed_channel_amended_witness :
    (⟨"teleamazonas.ec", 480, 510, "Noticias Guayaquil"⟩ : Programme).channel_id =
      TA_CHANNEL_ID ∧
    (⟨"ecdf.ec", 480, 570, "Partido"⟩ : Programme).channel_id = ECDF_CHANNEL_ID :=
  ⟨claim_C4_fixed_channel_amended.1 TA_CHANNEL_ID [(480, "Noticias Guayaquil")] _ (by decide),
   claim_C4_fixed_channel_amended.2 ["Partido", "08:00 - 09:30"] none
     [⟨"ecdf.ec", 480, 570, "Partido"⟩] _ (by decide) (by decide)⟩

/-- The rollover pass preserves the number of points. -/
theorem fixPoints_length : ∀ (l : List TAPoint) (last : Nat),
    (fixPoints last l).length = l.length := by
  intro l
  induction l with
  | nil => intro last; rfl
  | cons p rest ih =>
    intro last
    obtain ⟨dt, t⟩ := p
    simp [fixPoints, ih]

/-- The `fixed` list has as many points as the input. -/
theorem normalizeTimeline_length (pts : List TAPoint) :
    (normalizeTimeline pts).length = pts.length := by
  cases pts with
  | nil => rfl
  | cons p rest =>
    obtain ⟨dt, t⟩ := p
    simp [normalizeTimeline, fixPoints_length]

/-- The builder emits one programme per point. -/
theorem buildProgs_length : ∀ (l : List TAPoint) (ch : String),
    (buildProgs ch l).length = l.length := by
  intro l
  induction l with
  | nil => intro ch; rfl
  | cons p rest ih =>
    intro ch
    obtain ⟨dt, t⟩ := p
    simp [buildProgs, ih]

/-- Index-wise description of the builder: programme `i` starts at point `i`,
and stops at point `i+1`'s instant when that instant is strictly later, else
at `start + 30`. -/
theorem buildProgs_get : ∀ (l : List TAPoint) (ch : String) (i : Nat) (p : Programme),
    (buildProgs ch l)[i]? = some p →
    ∃ q : TAPoint, l[i]? = some q ∧ p.channel_id = ch ∧ p.start = q.1 ∧ p.title = q.2 ∧
      (l[i+1]? = none → p.stop = q.1 + 30) ∧
      (∀ r : TAPoint, l[i+1]? = some r →
        p.stop = if r.1 ≤ q.1 then q.1 + 30 else r.1) := by
  intro l
  induction l with
  | nil => intro ch i p h; simp [buildProgs] at h
  | cons q rest ih =>
    intro ch i p h
    obtain ⟨dt, title⟩ := q
    cases i with
    | zero =>
      simp only [buildProgs, List.getElem?_cons_zero, Option.some_inj] at h
      subst h
      refine ⟨(dt, title), by simp, rfl, rfl, rfl, ?_, ?_⟩
      · intro hnone
        cases rest with
        | nil => dsimp; split <;> omega
        | cons r2 rest' => simp at hnone
      · intro r hr
        cases rest with
        | nil => simp at hr
        | cons r2 rest' =>
          simp only [List.getElem?_cons_succ, List.getElem?_cons_zero,
            Option.some_inj] at hr
          subst hr
          rfl
    | succ j =>
      simp only [buildProgs, List.getElem?_cons_succ] at h
      obtain ⟨q', hq', hch, hstart, htitle, hnone, hsome⟩ := ih ch j p h
      exact ⟨q', by simpa using hq', hch, hstart, htitle,
        by simpa using hnone, by simpa using hsome⟩

/-- Claim C6, counterexample: on the already-normalized two-point sequence
`(08:00, "A"), (08:00, "B")` (minutes 480) a next point exists with instant
480, yet the first programme's stop is 510, not 480: the zero-duration guard
overrides the "stop is the next point's instant" rule. -/
theorem claim_C6_counterexample :
    points_to_programmes "c" [(480, "A"), (480, "B")] =
      [⟨"c", 480, 510, "A"⟩, ⟨"c", 480, 510, "B"⟩] ∧ (510 : Nat) ≠ 480 := by
  constructor
  · simp [points_to_programmes, normalizeTimeline, fixPoints, buildProgs, roll]
  · decide

/-- Claim C6, amended: for every point sequence the builder emits exactly one
programme per point in order; programme `i` starts at normalized point `i`'s
instant with its title; its stop is point `i+1`'s instant when a next point
exists **and is strictly later**, and `start + 30` otherwise (for the last
point, or when the next instant is not strictly after this one - the
zero-duration guard); an empty sequence yields an empty list. -/
theorem claim_C6_builder_amended (ch : String) (pts : List TAPoint) :
    (points_to_programmes ch pts).length = pts.length ∧
    (pts = [] → points_to_programmes ch pts = []) ∧
    (∀ (i : Nat) (p : Programme), (points_to_programmes ch pts)[i]? = some p →
      ∃ q : TAPoint, (normalizeTimeline pts)[i]? = some q ∧ p.channel_id = ch ∧
        p.start = q.1 ∧ p.title = q.2 ∧
        ((normalizeTimeline pts)[i+1]? = none → p.stop = q.1 + 30) ∧
        (∀ r : TAPoint, (normalizeTimeline pts)[i+1]? = some r →
          p.stop = if r.1 ≤ q.1 then q.1 + 30 else r.1)) := by
  refine ⟨?_, ?_, ?_⟩
  · rw [points_to_programmes, buildProgs_length, normalizeTimeline_length]
  · intro h; subst h; rfl
  · intro i p h
    exact buildProgs_get (normalizeTimeline pts) ch i p h

/-- Witness for the amended C6 at a concrete input. -/
theorem claim_C6_builder_amended_witness :
    ∃ q : TAPoint, (normalizeTimeline [(480, "A"), (510, "B")])[0]? = some q ∧
      q.1 = 480 := by
  obtain ⟨q, hq, hch, hstart, hrest⟩ :=
    (claim_C6_builder_amended "c" [(480, "A"), (510, "B")]).2.2 0
      ⟨"c", 480, 510, "A"⟩ (by simp [points_to_programmes, normalizeTimeline,
        fixPoints, buildProgs, roll])
  exact ⟨q, hq, by rw [← hstart]⟩

/-! The time-token parser -/

/-- A digit character has digit value at most 9. -/
theorem toD_le_of_digit (c : Char) (h : isDigitC c = true) : toD c ≤ 9 := by
  simp only [isDigitC, Bool.decide_and, Bool.and_eq_true, decide_eq_true_eq] at h
  simp only [toD]
  omega

/-- The `(\d{1,2}):` group decodes to a value at most 99. -/
theorem parseD2Colon_le (l : List Char) (n : Nat) (r : List Char)
    (h : parseD2Colon l = some (n, r)) : n ≤ 99 := by
  match l with
  | [] => simp [parseD2Colon] at h
  | [a] => simp [parseD2Colon] at h
  | [a, b] =>
    simp only [parseD2Colon] at h
    split at h
    · rename_i hc
      simp only [Option.some_inj, Prod.mk.injEq] at h
      have := toD_le_of_digit a hc.1
      omega
    · simp at h
  | a :: b :: c :: rest =>
    simp only [parseD2Colon] at h
    split at h
    · rename_i hc
      simp only [Option.some_inj, Prod.mk.injEq] at h
      have h1 := toD_le_of_digit a hc.1
      have h2 := toD_le_of_digit b hc.2.1
      omega
    · split at h
      · rename_i hc
        simp only [Option.some_inj, Prod.mk.injEq] at h
        have := toD_le_of_digit a hc.1
        omega
      · simp at h

/-- The `(\d{2})` group decodes to a value at most 99. -/
theorem parse2D_le (l : List Char) (n : Nat) (r : List Char)
    (h : parse2D l = some (n, r)) : n ≤ 99 := by
  match l with
  | [] => simp [parse2D] at h
  | [a] => simp [parse2D] at h
  | a :: b :: rest =>
    simp only [parse2D] at h
    split at h
    · rename_i hc
      simp only [Option.some_inj, Prod.mk.injEq] at h
      have h1 := toD_le_of_digit a hc.1
      have h2 := toD_le_of_digit b hc.2
      omega
    · simp at h

/-- A successful `parse_hhmm` returns the decoded digit values, bounded only
by the digit pattern (`≤ 99`), with no clock-range validation. -/
theorem parse_hhmm_le (s : String) (h m : Nat) (hp : parse_hhmm s = some (h, m)) :
    h ≤ 99 ∧ m ≤ 99 := by
  simp only [parse_hhmm] at hp
  split at hp
  · simp at hp
  · rename_i hh l hd2
    split at hp
    · simp at hp
    · rename_i mm l2 h2d
      split at hp
      · simp only [Option.some_inj, Prod.mk.injEq] at hp
        obtain ⟨rfl, rfl⟩ := hp
        exact ⟨parseD2Colon_le _ _ _ hd2, parse2D_le _ _ _ h2d⟩
      · simp at hp

/-- An empty string never parses as a time. -/
theorem parse_hhmm_empty : parse_hhmm "" = none := by decide

/-- Claim C3, counterexample: the parser has no range validation - the
out-of-range token `"25:99"` is accepted and decoded rather than signalled as
"not a time", and feeding it through an extractor item makes the extractor
raise an uncaught `ValueError` at `datetime` construction (a crash), instead
of skipping it. -/
theorem claim_C3_counterexample :
    parse_hhmm "25:99" = some (25, 99) ∧ ta_collect [("25:99", "Movie")] = none := by
  exact ⟨by decide, by decide⟩

/-- Claim C3, amended: `parse_hhmm` accepts exactly the strings whose cleaned
text matches the digit pattern `H:MM`/`HH:MM` with **no range check** (any
hour and minute up to 99).  A token that fails the pattern raises
`ValueError`, which the extractor catches and skips silently; a token that
matches but is out of clock range (hour > 23 or minute > 59) is *not*
rejected by the parser, and crashes the extractor with an uncaught
`ValueError` when the `datetime` is built; an in-range token yields the
timestamp. -/
theorem claim_C3_parser_amended :
    (∀ (s : String) (h m : Nat), parse_hhmm s = some (h, m) → h ≤ 99 ∧ m ≤ 99) ∧
    (∀ tr ti : String, clean_text tr ≠ "" → clean_text ti ≠ "" →
      parse_hhmm (clean_text tr) = none → ta_process_item tr ti = some none) ∧
    (∀ (tr ti : String) (h m : Nat), clean_text ti ≠ "" →
      parse_hhmm (clean_text tr) = some (h, m) → 23 < h ∨ 59 < m →
      ta_process_item tr ti = none) ∧
    (∀ (tr ti : String) (h m : Nat), clean_text ti ≠ "" →
      parse_hhmm (clean_text tr) = some (h, m) → h ≤ 23 → m ≤ 59 →
      ta_process_item tr ti = some (some (h * 60 + m, clean_text ti))) := by
  have hne : ∀ (tr : String) (h m : Nat), parse_hhmm (clean_text tr) = some (h, m) →
      clean_text tr ≠ "" := by
    intro tr h m hp habs
    rw [habs, parse_hhmm_empty] at hp
    exact Option.noConfusion hp
  refine ⟨parse_hhmm_le, ?_, ?_, ?_⟩
  · intro tr ti h1 h2 h3
    simp [ta_process_item, h1, h2, h3]
  · intro tr ti h m hti hp hrange
    have htr := hne tr h m hp
    simp only [ta_process_item, htr, hti, or_self, if_false, hp]
    have : mk_dt h m = none := by
      simp only [mk_dt, ite_eq_right_iff]
      intro hc
      omega
    simp [this]
  · intro tr ti h m hti hp hh hm
    have htr := hne tr h m hp
    simp only [ta_process_item, htr, hti, or_self, if_false, hp]
    have : mk_dt h m = some (h * 60 + m) := by simp [mk_dt, hh, hm]
    simp [this]

/-- Witness for the amended C3 at concrete inputs. -/
theorem claim_C3_parser_amended_witness :
    (25 ≤ 99 ∧ 99 ≤ 99) ∧
    ta_process_item "abc" "Show" = some none ∧
    ta_process_item "25:99" "Show" = none ∧
    ta_process_item "7:30" "Show" = some (some (7 * 60 + 30, clean_text "Show")) :=
  ⟨claim_C3_parser_amended.1 "25:99" 25 99 (by decide),
   claim_C3_parser_amended.2.1 "abc" "Show" (by decide) (by decide) (by decide),
   claim_C3_parser_amended.2.2.1 "25:99" "Show" 25 99 (by decide) (by decide)
     (by decide),
   claim_C3_parser_amended.2.2.2 "7:30" "Show" 7 30 (by decide) (by decide)
     (by decide) (by decide)⟩

/-! Title normalization -/

/-- Every character emitted by the whitespace collapse is a plain space or a
character of the input. -/
theorem collapseWS_mem : ∀ (l : List Char), ∀ c ∈ collapseWS l, c = ' ' ∨ c ∈ l
  | [] => by simp [collapseWS]
  | [a] => by
    simp only [collapseWS]
    split <;> simp_all
  | a :: b :: rest => by
    intro c hc
    simp only [collapseWS] at hc
    split at hc
    · rcases collapseWS_mem (b :: rest) c hc with h | h
      · exact Or.inl h
      · exact Or.inr (List.mem_cons_of_mem a h)
    · rcases List.mem_cons.mp hc with rfl | h
      · split
        · exact Or.inl rfl
        · exact Or.inr (List.mem_cons_self _ _)
      · rcases collapseWS_mem (b :: rest) c h with h' | h'
        · exact Or.inl h'
        · exact Or.inr (List.mem_cons_of_mem a h')

/-- Every whitespace character emitted by the collapse is the plain space. -/
theorem collapseWS_space : ∀ (l : List Char), ∀ c ∈ collapseWS l,
    isPySpace c = true → c = ' '
  | [] => by simp [collapseWS]
  | [a] => by
    simp only [collapseWS]
    split
    · simp
    · simp_all
  | a :: b :: rest => by
    intro c hc hs
    simp only [collapseWS] at hc
    split at hc
    · exact collapseWS_space (b :: rest) c hc hs
    · rcases List.mem_cons.mp hc with rfl | h
      · by_cases ha : isPySpace a = true
        · simp [ha]
        · rw [if_neg ha] at hs
          exact absurd hs ha
      · exact collapseWS_space (b :: rest) c h hs

/-- A non-whitespace head survives the collapse as the head. -/
theorem collapseWS_head (b : Char) (rest : List Char) (hb : ¬ isPySpace b = true) :
    ∃ t, collapseWS (b :: rest) = b :: t := by
  cases rest with
  | nil => exact ⟨[], by simp [collapseWS, hb]⟩
  | cons c r =>
    refine ⟨collapseWS (c :: r), ?_⟩
    simp only [collapseWS]
    rw [if_neg (fun hand => hb hand.1), if_neg hb]

/-- The collapse never emits two adjacent plain spaces. -/
theorem collapseWS_chain : ∀ (l : List Char),
    List.Chain' (fun a b : Char => ¬(a = ' ' ∧ b = ' ')) (collapseWS l)
  | [] => by simp [collapseWS]
  | [a] => by
    simp only [collapseWS]
    split <;> exact List.chain'_singleton _
  | a :: b :: rest => by
    have ih := collapseWS_chain (b :: rest)
    simp only [collapseWS]
    split
    · exact ih
    · rename_i hcond
      rw [List.chain'_cons']
      refine ⟨?_, ih⟩
      intro y hy
      by_cases ha : isPySpace a = true
      · have hb : ¬ isPySpace b = true := fun hb => hcond ⟨ha, hb⟩
        obtain ⟨t, ht⟩ := collapseWS_head b rest hb
        rw [ht] at hy
        simp only [List.head?_cons, Option.mem_def, Option.some_inj] at hy
        subst hy
        intro hand
        exact hb (by rw [hand.2]; rfl)
      · simp only [if_neg ha]
        intro hand
        exact ha (by rw [hand.1]; rfl)

/-- Dropping a while-prefix preserves adjacency invariants. -/
theorem chain'_dropWhile {R : Char → Char → Prop} (p : Char → Bool) :
    ∀ (l : List Char), List.Chain' R l → List.Chain' R (l.dropWhile p)
  | [] => fun h => h
  | a :: l => fun h => by
    rw [List.dropWhile_cons]
    split
    · exact chain'_dropWhile p l h.tail
    · exact h

/-- Reversal preserves a symmetric adjacency invariant. -/
theorem chain'_reverse_symm {R : Char → Char → Prop}
    (hsym : ∀ a b, R a b → R b a) (l : List Char) (h : List.Chain' R l) :
    List.Chain' R l.reverse := by
  rw [List.chain'_reverse]
  exact h.imp (fun a b hab => hsym a b hab)

/-- Stripping preserves adjacency invariants that are symmetric. -/
theorem chain'_pyStrip {R : Char → Char → Prop}
    (hsym : ∀ a b, R a b → R b a) (l : List Char) (h : List.Chain' R l) :
    List.Chain' R (pyStrip l) :=
  chain'_reverse_symm hsym _
    (chain'_dropWhile isPySpace _
      (chain'_reverse_symm hsym _ (chain'_dropWhile isPySpace l h)))

/-- The strip keeps a subsequence of the input. -/
theorem pyStrip_sublist (l : List Char) : (pyStrip l).Sublist l := by
  have h1 : (l.dropWhile isPySpace).Sublist l := List.dropWhile_sublist _
  have h2 : ((l.dropWhile isPySpace).reverse.dropWhile isPySpace).Sublist
      (l.dropWhile isPySpace).reverse := List.dropWhile_sublist _
  have h3 := h2.reverse
  rw [List.reverse_reverse] at h3
  exact h3.trans h1

/-- Decomposition of a successful `AM`/`PM` prefix chomp. -/
theorem chompAmPmWs_some (l r : List Char) (h : chompAmPmWs l = some r) :
    r = (l.drop 2).dropWhile isPySpace := by
  match l with
  | [] => simp [chompAmPmWs] at h
  | [a] => simp [chompAmPmWs] at h
  | [a, b] => simp [chompAmPmWs] at h
  | a :: b :: c :: rest =>
    simp only [chompAmPmWs] at h
    split at h
    · simp only [Option.some_inj] at h
      subst h
      rfl
    · simp at h

/-- Dropping two characters then a while-prefix preserves adjacency
invariants. -/
theorem chain'_chomp {R : Char → Char → Prop} (l r : List Char)
    (h : List.Chain' R l) (hc : chompAmPmWs l = some r) : List.Chain' R r := by
  rw [chompAmPmWs_some l r hc]
  have hdrop : l.drop 2 = l.tail.tail := by
    rcases l with _ | ⟨a, _ | ⟨b, t⟩⟩ <;> rfl
  rw [hdrop]
  exact chain'_dropWhile isPySpace _ h.tail.tail

/-- A successful chomp keeps a subsequence of the input. -/
theorem chomp_sublist (l r : List Char) (hc : chompAmPmWs l = some r) :
    r.Sublist l := by
  rw [chompAmPmWs_some l r hc]
  exact (List.dropWhile_sublist _).trans (List.drop_sublist 2 l)

/-- Any property preserved by a successful chomp is preserved by the whole
AM/PM prefix removal. -/
theorem stripAmPm_pres (P : List Char → Prop)
    (hP : ∀ x r, P x → chompAmPmWs x = some r → P r) :
    ∀ l, P l → P (stripAmPm l) := by
  intro l h
  simp only [stripAmPm]
  have step : ∀ x, P x → P (match chompAmPmWs x with | some r => r | none => x) := by
    intro x hx
    rcases hc : chompAmPmWs x with _ | r
    · exact hx
    · exact hP x r hx hc
  have hl1 : P (match chompAmPmWs l with
      | some r1 => match chompAmPmWs r1 with | some r2 => r2 | none => l
      | none => l) := by
    rcases hc1 : chompAmPmWs l with _ | r1
    · exact h
    · dsimp only
      rcases hc2 : chompAmPmWs r1 with _ | r2
      · exact h
      · exact hP r1 r2 (hP l r1 h hc1) hc2
  exact step _ hl1

/-- The AM/PM prefix removal preserves adjacency invariants. -/
theorem chain'_stripAmPm {R : Char → Char → Prop} (l : List Char)
    (h : List.Chain' R l) : List.Chain' R (stripAmPm l) :=
  stripAmPm_pres (fun x => List.Chain' R x) (fun x r hx hc => chain'_chomp x r hx hc) l h

/-- The AM/PM prefix removal keeps a subsequence of the input. -/
theorem stripAmPm_sublist (l : List Char) : (stripAmPm l).Sublist l :=
  stripAmPm_pres (fun x => x.Sublist l)
    (fun x r hx hc => (chomp_sublist x r hc).trans hx) l (List.Sublist.refl l)

/-- Claim C9, counterexample: `clean_text` does not strip a generic leading
duplicated token - the doubled first word of `"Cine Cine Club"` is left in
place (only the `AM`/`PM` markers are stripped). -/
theorem claim_C9_counterexample :
    clean_text "Cine Cine Club" = "Cine Cine Club" ∧
    ("Cine Cine Club" : String) ≠ "Cine Club" := by
  exact ⟨by decide, by decide⟩

/-- Claim C9, amended: `clean_text` collapses every whitespace run to a
single space (its output contains no non-breaking space, every whitespace
character in it is the plain space, and no two spaces are adjacent) and
strips leading `AM`/`PM` marker prefixes case-insensitively - first a doubled
marker pair, then a single marker.  A generic duplicated leading word is
**not** stripped. -/
theorem claim_C9_clean_text_amended :
    (∀ s : String,
      (∀ c ∈ (clean_text s).data, c ≠ '\xA0') ∧
      (∀ c ∈ (clean_text s).data, isPySpace c = true → c = ' ') ∧
      List.Chain' (fun a b : Char => ¬(a = ' ' ∧ b = ' ')) (clean_text s).data) ∧
    clean_text "AM AM Noticias" = "Noticias" ∧
    clean_text "pm Cine" = "Cine" ∧
    clean_text " Hola \xA0 Mundo " = "Hola Mundo" ∧
    clean_text "Cine Cine Club" = "Cine Cine Club" := by
  refine ⟨?_, by decide, by decide, by decide, by decide⟩
  intro s
  set l0 := s.data.map (fun c => if c = '\xA0' then ' ' else c) with hl0
  have hdata : (clean_text s).data =
      pyStrip (stripAmPm (pyStrip (collapseWS l0))) := rfl
  have hsub : (clean_text s).data.Sublist (collapseWS l0) := by
    rw [hdata]
    exact (pyStrip_sublist _).trans
      ((stripAmPm_sublist _).trans (pyStrip_sublist _))
  refine ⟨?_, ?_, ?_⟩
  · intro c hc
    rcases collapseWS_mem l0 c (hsub.mem hc) with rfl | hmem
    · decide
    · rw [hl0] at hmem
      obtain ⟨x, _, hx⟩ := List.mem_map.mp hmem
      subst hx
      split <;> first | decide | assumption
  · intro c hc
    exact collapseWS_space l0 c (hsub.mem hc)
  · rw [hdata]
    exact chain'_pyStrip (fun a b h hab => h ⟨hab.2, hab.1⟩) _
      (chain'_stripAmPm _
        (chain'_pyStrip (fun a b h hab => h ⟨hab.2, hab.1⟩) _
          (collapseWS_chain l0)))

/-- Witness for the amended C9 at a concrete input. -/
theorem claim_C9_clean_text_amended_witness : ('b' : Char) ≠ '\xA0' :=
  (claim_C9_clean_text_amended.1 "a\t\tb").1 'b' (by decide)

/-! The extractor's dedup-and-sort phase -/

/-- The dedup loop only keeps points of its input. -/
theorem ta_dedup_subset : ∀ (l : List TAPoint) (seen : List (Nat × String))
    (q : TAPoint), q ∈ ta_dedup seen l → q ∈ l := by
  intro l
  induction l with
  | nil => intro seen q h; simp [ta_dedup] at h
  | cons p rest ih =>
    intro seen q h
    simp only [ta_dedup] at h
    split at h
    · exact List.mem_cons_of_mem p (ih seen q h)
    · rcases List.mem_cons.mp h with rfl | h'
      · exact List.mem_cons_self _ _
      · exact List.mem_cons_of_mem p (ih _ q h')

/-- Every input point's key either was already seen or survives in the
dedup output. -/
theorem ta_dedup_covers : ∀ (l : List TAPoint) (seen : List (Nat × String))
    (p : TAPoint), p ∈ l →
    taKey p ∈ seen ∨ ∃ q ∈ ta_dedup seen l, taKey q = taKey p := by
  intro l
  induction l with
  | nil => intro seen p h; simp at h
  | cons hd rest ih =>
    intro seen p h
    simp only [ta_dedup]
    rcases List.mem_cons.mp h with rfl | hmem
    · split
      · exact Or.inl (by assumption)
      · exact Or.inr ⟨p, List.mem_cons_self _ _, rfl⟩
    · split
      · exact ih seen p hmem
      · rcases ih (taKey hd :: seen) p hmem with hin | ⟨q, hq, hkey⟩
        · rcases List.mem_cons.mp hin with heq | hin'
          · exact Or.inr ⟨hd, List.mem_cons_self _ _, heq.symm⟩
          · exact Or.inl hin'
        · exact Or.inr ⟨q, List.mem_cons_of_mem hd hq, hkey⟩

/-- The dedup output has pairwise distinct keys, none of them already
seen. -/
theorem ta_dedup_pairwise : ∀ (l : List TAPoint) (seen : List (Nat × String)),
    List.Pairwise (fun a b : TAPoint => taKey a ≠ taKey b) (ta_dedup seen l) ∧
    ∀ q ∈ ta_dedup seen l, taKey q ∉ seen := by
  intro l
  induction l with
  | nil => intro seen; exact ⟨List.Pairwise.nil, by simp [ta_dedup]⟩
  | cons hd rest ih =>
    intro seen
    simp only [ta_dedup]
    split
    · exact ih seen
    · rename_i hni
      obtain ⟨hpw, hns⟩ := ih (taKey hd :: seen)
      refine ⟨List.Pairwise.cons ?_ hpw, ?_⟩
      · intro q hq heq
        exact hns q hq (by rw [← heq]; exact List.mem_cons_self _ _)
      · intro q hq
        rcases List.mem_cons.mp hq with rfl | hq'
        · exact hni
        · exact fun hmem => hns q hq' (List.mem_cons_of_mem _ hmem)

/-- Claim C8, counterexample: the dedup key lowercases the title, so the two
*distinct* points `(08:00, "News")` and `(08:00, "NEWS")` - same clock time,
different titles - are NOT both preserved: the second is removed as a
"repeat" although it is not an exact repeat of the first. -/
theorem claim_C8_counterexample :
    ta_dedup_sort [(480, "News"), (480, "NEWS")] = [(480, "News")] ∧
    ("News" : String) ≠ "NEWS" := by
  constructor
  · have h1 : ta_dedup [] [(480, "News"), (480, "NEWS")] = [(480, "News")] := by
      decide
    rw [ta_dedup_sort, h1, List.mergeSort_singleton]
  · decide

/-- Claim C8, amended: the extractor's dedup phase removes repeats of the
key `(time, lowercased title)` - not of the exact `(time, title)` pair -
keeping first occurrences, then stable-sorts ascending by time-of-day.  The
output is sorted by clock time, contains only input points, covers every
input point's key, and has pairwise-distinct keys; so two same-time points
are both kept exactly when their titles differ case-insensitively. -/
theorem claim_C8_extractor_amended (pts : List TAPoint) :
    List.Chain' (fun a b : TAPoint => a.1 ≤ b.1) (ta_dedup_sort pts) ∧
    (∀ p ∈ pts, ∃ q ∈ ta_dedup_sort pts, taKey q = taKey p) ∧
    (∀ q ∈ ta_dedup_sort pts, q ∈ pts) ∧
    List.Pairwise (fun a b : TAPoint => taKey a ≠ taKey b) (ta_dedup_sort pts) := by
  have hperm := List.mergeSort_perm (ta_dedup [] pts)
    (fun a b : TAPoint => a.1 ≤ b.1)
  refine ⟨?_, ?_, ?_, ?_⟩
  · have hs := @List.sorted_mergeSort TAPoint
      (fun a b : TAPoint => a.1 ≤ b.1)
      (fun (a b c : TAPoint) hab hbc => by
        have h1 : a.1 ≤ b.1 := by simpa using hab
        have h2 : b.1 ≤ c.1 := by simpa using hbc
        simpa using h1.trans h2)
      (fun a b : TAPoint => by simpa using Nat.le_total a.1 b.1)
      (ta_dedup [] pts)
    exact (hs.imp (fun hab => by simpa using hab)).chain'
  · intro p hp
    rcases ta_dedup_covers pts [] p hp with hin | ⟨q, hq, hkey⟩
    · simp at hin
    · exact ⟨q, hperm.mem_iff.mpr hq, hkey⟩
  · intro q hq
    exact ta_dedup_subset pts [] q (hperm.mem_iff.mp hq)
  · exact (List.Perm.pairwise_iff (fun h heq => h heq.symm) hperm).mpr
      (ta_dedup_pairwise pts []).1

/-- Witness for the amended C8 at a concrete input. -/
theorem claim_C8_extractor_amended_witness :
    ∃ q ∈ ta_dedup_sort [((480 : Nat), "Cine")], taKey q = taKey (480, "Cine") :=
  (claim_C8_extractor_amended [((480 : Nat), "Cine")]).2.1 (480, "Cine")
    (by decide)

/-! The aggregator of `main` -/

/-- Unfolding of the tuple comparison as Python's lexicographic tuple
order. -/
theorem keyLe_eq_true_iff (a b : String × Nat × Nat × String) :
    keyLe a b = true ↔
      a.1 < b.1 ∨ (a.1 = b.1 ∧ (a.2.1 < b.2.1 ∨ (a.2.1 = b.2.1 ∧
        (a.2.2.1 < b.2.2.1 ∨ (a.2.2.1 = b.2.2.1 ∧ a.2.2.2 ≤ b.2.2.2))))) := by
  simp only [keyLe]
  split_ifs <;> simp_all

/-- One lexicographic layer is transitive. -/
theorem lex_trans_step {α : Type} [LinearOrder α] {x y z : α} {p q r : Prop}
    (hpq : p → q → r)
    (h1 : x < y ∨ (x = y ∧ p)) (h2 : y < z ∨ (y = z ∧ q)) :
    x < z ∨ (x = z ∧ r) := by
  rcases h1 with h1 | ⟨e1, hp⟩
  · rcases h2 with h2 | ⟨e2, _⟩
    · exact Or.inl (h1.trans h2)
    · exact Or.inl (e2 ▸ h1)
  · rcases h2 with h2 | ⟨e2, hq⟩
    · exact Or.inl (lt_of_eq_of_lt e1 h2)
    · exact Or.inr ⟨e1.trans e2, hpq hp hq⟩

/-- One lexicographic layer is total. -/
theorem lex_total_step {α : Type} [LinearOrder α] {x y : α} {p q : Prop}
    (hpq : p ∨ q) : (x < y ∨ (x = y ∧ p)) ∨ (y < x ∨ (y = x ∧ q)) := by
  rcases lt_trichotomy x y with h | h | h
  · exact Or.inl (Or.inl h)
  · rcases hpq with hp | hq
    · exact Or.inl (Or.inr ⟨h, hp⟩)
    · exact Or.inr (Or.inr ⟨h.symm, hq⟩)
  · exact Or.inr (Or.inl h)

/-- The tuple comparison is transitive. -/
theorem keyLe_trans (a b c : String × Nat × Nat × String)
    (hab : keyLe a b = true) (hbc : keyLe b c = true) : keyLe a c = true := by
  rw [keyLe_eq_true_iff] at hab hbc ⊢
  exact lex_trans_step
    (fun hp hq => lex_trans_step
      (fun hp' hq' => lex_trans_step (fun hw1 hw2 => hw1.trans hw2) hp' hq')
      hp hq)
    hab hbc

/-- The tuple comparison is total. -/
theorem keyLe_total (a b : String × Nat × Nat × String) :
    (keyLe a b || keyLe b a) = true := by
  rw [Bool.or_eq_true, keyLe_eq_true_iff, keyLe_eq_true_iff]
  exact lex_total_step (lex_total_step (lex_total_step (le_total _ _)))

/-- The adjacent dedup keeps a subsequence of its input. -/
theorem dedupAdj_sublist : ∀ (l : List Programme)
    (lk : Option (String × Nat × Nat × String)), (dedupAdj lk l).Sublist l := by
  intro l
  induction l with
  | nil => intro lk; simp [dedupAdj]
  | cons p ps ih =>
    intro lk
    simp only [dedupAdj]
    split
    · exact (ih (some (progKey p))).trans (List.sublist_cons_self p ps)
    · exact (ih (some (progKey p))).cons₂ p

/-- The adjacent dedup output has pairwise-distinct adjacent keys, and its
head key differs from the incoming `last_key`. -/
theorem dedupAdj_chain : ∀ (l : List Programme)
    (lk : Option (String × Nat × Nat × String)),
    List.Chain' (fun a b : Programme => progKey a ≠ progKey b) (dedupAdj lk l) ∧
    ∀ q : Programme, (dedupAdj lk l).head? = some q → some (progKey q) ≠ lk := by
  intro l
  induction l with
  | nil => intro lk; exact ⟨List.chain'_nil, by simp [dedupAdj]⟩
  | cons p ps ih =>
    intro lk
    simp only [dedupAdj]
    split
    · rename_i heq
      obtain ⟨hch, hhd⟩ := ih (some (progKey p))
      refine ⟨hch, fun q hq => ?_⟩
      rw [← heq]
      exact hhd q hq
    · rename_i hne
      obtain ⟨hch, hhd⟩ := ih (some (progKey p))
      refine ⟨List.chain'_cons'.mpr ⟨?_, hch⟩, ?_⟩
      · intro y hy
        have := hhd y hy
        intro heq
        exact this (by rw [heq])
      · intro q hq
        simp only [List.head?_cons, Option.some_inj] at hq
        subst hq
        exact hne

/-- A list with pairwise-distinct adjacent keys whose head key differs from
`last_key` passes the adjacent dedup unchanged. -/
theorem dedupAdj_of_chain : ∀ (l : List Programme)
    (lk : Option (String × Nat × Nat × String)),
    List.Chain' (fun a b : Programme => progKey a ≠ progKey b) l →
    (∀ q : Programme, l.head? = some q → some (progKey q) ≠ lk) →
    dedupAdj lk l = l := by
  intro l
  induction l with
  | nil => intro lk _ _; rfl
  | cons p ps ih =>
    intro lk hch hhd
    have hne : ¬ some (progKey p) = lk := hhd p (by simp)
    simp only [dedupAdj, if_neg hne]
    obtain ⟨hfirst, htail⟩ := List.chain'_cons'.mp hch
    refine congrArg (p :: ·) (ih (some (progKey p)) htail ?_)
    intro q hq
    have := hfirst q hq
    intro heq
    exact this (by injection heq with h; exact h.symm)

/-- The sorted output of the aggregator's sort is pairwise ordered. -/
theorem aggregate_sort_pairwise (l : List Programme) :
    List.Pairwise (fun a b : Programme => progLe a b = true) (l.mergeSort progLe) :=
  @List.sorted_mergeSort Programme progLe
    (fun a b c hab hbc => keyLe_trans _ _ _ hab hbc)
    (fun a b => keyLe_total (progKey a) (progKey b))
    l

/-- Claim C7: the aggregator sorts by `(channelId, start, stop,
lowercase(title))` and removes exactly the items whose full key equals the
preceding item's key: its output is sorted, has pairwise-distinct adjacent
keys, and applying the aggregator to its own output is the identity. -/
theorem claim_C7_aggregate_idempotent (l : List Programme) :
    List.Chain' (fun a b : Programme => keyLe (progKey a) (progKey b) = true)
      (aggregate l) ∧
    List.Chain' (fun a b : Programme => progKey a ≠ progKey b) (aggregate l) ∧
    aggregate (aggregate l) = aggregate l := by
  have hpw : List.Pairwise (fun a b : Programme => progLe a b = true)
      (aggregate l) :=
    (aggregate_sort_pairwise l).sublist (dedupAdj_sublist _ none)
  have hch := dedupAdj_chain (l.mergeSort progLe) none
  refine ⟨hpw.chain', hch.1, ?_⟩
  show dedupAdj none ((aggregate l).mergeSort progLe) = aggregate l
  rw [List.mergeSort_of_sorted hpw]
  exact dedupAdj_of_chain (aggregate l) none hch.1 (fun q _ => by simp)

/-! The flat-text (range-mode) extractor -/

/-- Claim C10: in the `scrape_ecdf` guide loop, (i) empty and non-meaningful
non-range lines change nothing; (ii) a time-range line with no pending title
produces nothing; (iii) after a meaningful title line, of two consecutive
time-range lines only the first produces a programme - emitting clears the
pending title, so the second range line is dropped. -/
theorem claim_C10_range_clears_title :
    (∀ (st : Option String) (noise rest : List String),
      (∀ x ∈ noise, x = "" ∨ (parseRange x = none ∧ meaningful_line x = false)) →
      ecdf_loop st (noise ++ rest) = ecdf_loop st rest) ∧
    (∀ (r : String) (rest : List String) (sh sm eh em : Nat),
      parseRange r = some (sh, sm, eh, em) →
      ecdf_loop none (r :: rest) = ecdf_loop none rest) ∧
    (∀ (t r1 r2 : String) (rest : List String) (sh sm eh em a b c d : Nat),
      meaningful_line t = true → parseRange t = none →
      parseRange r1 = some (sh, sm, eh, em) →
      sh ≤ 23 → sm ≤ 59 → eh ≤ 23 → em ≤ 59 →
      parseRange r2 = some (a, b, c, d) →
      ecdf_loop none (t :: r1 :: r2 :: rest) =
        Option.map
          (fun ps => (⟨ECDF_CHANNEL_ID, sh * 60 + sm,
            if eh * 60 + em ≤ sh * 60 + sm then eh * 60 + em + 1440
            else eh * 60 + em, t⟩ : Programme) :: ps)
          (ecdf_loop none rest)) := by
  have hemp : ∀ (s : String) (v : Nat × Nat × Nat × Nat),
      parseRange s = some v → s ≠ "" := by
    intro s v hv h
    rw [h] at hv
    exact Option.noConfusion ((by decide : parseRange "" = none) ▸ hv)
  refine ⟨?_, ?_, ?_⟩
  · intro st noise
    induction noise with
    | nil => intro rest _; rfl
    | cons x ns ih =>
      intro rest hns
      rcases hns x (List.mem_cons_self _ _) with rfl | ⟨hpr, hml⟩
      · rw [List.cons_append]
        simp only [ecdf_loop, if_pos rfl]
        exact ih rest (fun y hy => hns y (List.mem_cons_of_mem _ hy))
      · rw [List.cons_append]
        simp only [ecdf_loop, hpr, hml]
        by_cases hx : x = ""
        · simp only [if_pos hx]
          exact ih rest (fun y hy => hns y (List.mem_cons_of_mem _ hy))
        · simp only [if_neg hx, Bool.false_eq_true, false_and, if_false]
          exact ih rest (fun y hy => hns y (List.mem_cons_of_mem _ hy))
  · intro r rest sh sm eh em hr
    simp only [ecdf_loop, hr, if_neg (hemp r _ hr)]
  · intro t r1 r2 rest sh sm eh em a b c d hm hnt h1 hsh hsm heh hem h2
    have ht : t ≠ "" := by
      intro h
      rw [h] at hm
      exact absurd hm (by decide)
    have hmk1 : mk_dt sh sm = some (sh * 60 + sm) := by simp [mk_dt, hsh, hsm]
    have hmk2 : mk_dt eh em = some (eh * 60 + em) := by simp [mk_dt, heh, hem]
    simp only [ecdf_loop, if_neg ht, if_neg (hemp r1 _ h1), if_neg (hemp r2 _ h2),
      hnt, hm, h1, h2, hmk1, hmk2, Option.isNone_none, true_and, if_true]

/-- Witness for C10 at a concrete guide: of two consecutive range lines after
one title only the first emits a programme. -/
theorem claim_C10_range_clears_title_witness :
    ecdf_loop none ["Partido", "08:00 - 09:30", "10:00 - 11:00"] =
      some [⟨ECDF_CHANNEL_ID, 480, 570, "Partido"⟩] := by
  have h := claim_C10_range_clears_title.2.2 "Partido" "08:00 - 09:30"
    "10:00 - 11:00" [] 8 0 9 30 10 0 11 0 (by decide) (by decide) (by decide)
    (by decide) (by decide) (by decide) (by decide) (by decide)
  rw [h]
  rfl
